import Mathlib

/-!
Verification development for the cotfs tag filesystem.

The metadata store (package `db`, file fsdb.go) is embedded as a `Store`
record holding the four sqlite relations in row (insertion) order:
`tag(id, txt)`, `file_md(id, name, path)`, `file_tags(fid, tid)` with
primary key `(fid, tid)`, and `tag_assoc(t1, t2)` with primary key
`(t1, t2)`.  Each Go function of the db package is translated to a pure
function on `Store`; the SQL executed by the Go code is hand-translated
to list filters that mirror each query clause by clause.  The FUSE layer
(package `cotfs`, cotfs.go) is embedded on top of that.
-/

/-- Row of the `tag` table (`metadata.TagInfo`). -/
structure TagInfo where
  Id : Int
  Text : String
deriving DecidableEq, Repr

/-- Row of the `file_md` table (`metadata.FileInfo`). -/
structure FileInfo where
  Id : Int
  Name : String
  Path : String
deriving DecidableEq, Repr

/-- `metadata.UnknownTag`: the sentinel returned when a tag lookup finds no row. -/
def UnknownTag : TagInfo := ⟨-1, ""⟩

/-- `metadata.UnknownFile`: the sentinel returned when a file lookup finds no row. -/
def UnknownFile : FileInfo := ⟨-1, "", ""⟩

/-- The relational state of the metadata database: the four tables, each as a
list of rows in rowid (insertion) order. -/
structure Store where
  tags : List TagInfo
  files : List FileInfo
  fileTags : List (Int × Int)
  tagAssoc : List (Int × Int)
deriving DecidableEq, Repr

deriving instance DecidableEq for Except

/-- Byte/codepoint lexicographic order on character lists; this is the order
sqlite's `ORDER BY` produces on text columns (memcmp on UTF-8 bytes, which
coincides with codepoint order). -/
def textLe : List Char → List Char → Bool
  | [], _ => true
  | _ :: _, [] => false
  | a :: as, b :: bs =>
    if a.toNat < b.toNat then true
    else if b.toNat < a.toNat then false
    else textLe as bs

/-- `ORDER BY txt ASC` comparison on tag rows. -/
def tagLe (a b : TagInfo) : Bool := textLe a.Text.data b.Text.data

/-- One insertion step of an ascending (by `txt`) sort of tag rows. -/
def insertAsc (t : TagInfo) : List TagInfo → List TagInfo
  | [] => [t]
  | h :: rest => if tagLe h t then h :: insertAsc t rest else t :: h :: rest

/-- Sort tag rows ascending by `txt` (models `ORDER BY ot.txt ASC`). -/
def sortAscByText (l : List TagInfo) : List TagInfo := l.foldr insertAsc []

/-- One insertion step of a descending (by `txt`) sort of tag rows. -/
def insertDesc (t : TagInfo) : List TagInfo → List TagInfo
  | [] => [t]
  | h :: rest => if tagLe t h then h :: insertDesc t rest else t :: h :: rest

/-- Sort tag rows descending by `txt` (models `ORDER BY txt DESC`). -/
def sortDescByText (l : List TagInfo) : List TagInfo := l.foldr insertDesc []

/-- SQL `LIKE` matching (sqlite default semantics: `%` matches any sequence,
an underscore matches any single character, plain characters compare
ASCII-case-insensitively). -/
def likeMatch : List Char → List Char → Bool
  | [], [] => true
  | [], _ :: _ => false
  | '%' :: ps, [] => likeMatch ps []
  | '%' :: ps, c :: s2 => likeMatch ps (c :: s2) || likeMatch ('%' :: ps) s2
  | '_' :: _, [] => false
  | '_' :: ps, _ :: s2 => likeMatch ps s2
  | _ :: _, [] => false
  | p :: ps, c :: s2 => (p.toLower == c.toLower) && likeMatch ps s2
termination_by p s => (p.length, s.length)

/-- The name-filter predicate both queries build: `txt = ?` when the filter
has no `*`, else `txt LIKE ?` with every `*` replaced by `%`
(`strings.Replace(name, "*", "%", -1)`). -/
def nameFilterPred (name : String) (txt : String) : Bool :=
  if name.data.contains '*' then
    likeMatch (name.data.map (fun c => if c == '*' then '%' else c)) txt.data
  else name == txt

/-- `db.FindTag`: first `tag` row whose `txt` equals the argument, else
`metadata.UnknownTag`. -/
def FindTag (s : Store) (tag : String) : TagInfo :=
  (s.tags.find? (fun t => t.Text == tag)).getD UnknownTag

/-- `db.GetTag`: same query as `FindTag` (the source duplicates it). -/
def GetTag (s : Store) (name : String) : TagInfo :=
  (s.tags.find? (fun t => t.Text == name)).getD UnknownTag

/-- `db.GetAllTags`: `select id, txt from tag order by txt DESC`. -/
def GetAllTags (s : Store) : List TagInfo := sortDescByText s.tags

/-- The peer subquery shared by `GetCoincidentTag` and `GetCoincidentTags`:
tag id `otId` is a peer of the tag whose text is `ctxText` when some
`tag_assoc` row joins them in either orientation
(`select ta.t1 ... where tt.txt = ? and tt.id = ta.t2 UNION select ta.t2 ...
where tt.txt = ? and tt.id = ta.t1`). -/
def peerOf (s : Store) (ctxText : String) (otId : Int) : Bool :=
  s.tagAssoc.any (fun p =>
    s.tags.any (fun tt =>
      tt.Text == ctxText &&
        ((tt.Id == p.2 && p.1 == otId) || (tt.Id == p.1 && p.2 == otId))))

/-- `db.GetCoincidentTag`: the `tag` row with text `tagOne` whose id is a peer
of the tag with text `tagTwo`, else `metadata.UnknownTag`. -/
def GetCoincidentTag (s : Store) (tagOne tagTwo : String) : TagInfo :=
  (s.tags.find? (fun t => t.Text == tagOne && peerOf s tagTwo t.Id)).getD UnknownTag

/-- `db.GetCoincidentTags`: with an empty context the code short-circuits to
`GetAllTags` (the name filter is dropped); otherwise it selects the tags
whose id lies in the intersection of the peer sets of every context tag,
applies the name filter when the filter string is non-empty, and sorts
ascending by text. -/
def GetCoincidentTags (s : Store) (tags : List TagInfo) (name : String) : List TagInfo :=
  if tags.isEmpty then GetAllTags s
  else
    let base := s.tags.filter (fun ot => tags.all (fun c => peerOf s c.Text ot.Id))
    let filtered := if 0 < name.length then base.filter (fun ot => nameFilterPred name ot.Text) else base
    sortAscByText filtered

/-- `db.GetFilesWithTags`: one `EXISTS (select 1 from file_tags ft, tag t
where ft.tid = t.id and fid = f.id and t.txt = ?)` clause per requested tag,
plus the optional name filter.  When `tags` is empty the generated SQL is
`... where EXISTS` with no subquery (and possibly a dangling `AND`), which
fails to prepare, so the call returns an error. -/
def GetFilesWithTags (s : Store) (tags : List TagInfo) (name : String) :
    Except Unit (List FileInfo) :=
  if tags.isEmpty then .error ()
  else
    let base := s.files.filter (fun f =>
      tags.all (fun t =>
        s.fileTags.any (fun ft =>
          ft.1 == f.Id && s.tags.any (fun tr => tr.Id == ft.2 && tr.Text == t.Text))))
    .ok (if 0 < name.length then base.filter (fun f => nameFilterPred name f.Name) else base)

/-- `db.GetFileCountWithSingleTag`: `select count(*) from (select 1 from
file_tags where fid in (select fid from file_tags where tid = ?) group by fid
having count(*) = 1)` — the number of files that carry the given tag and have
exactly one membership row in total. -/
def GetFileCountWithSingleTag (s : Store) (tag : TagInfo) : Nat :=
  ((s.fileTags.filter (fun p => p.2 == tag.Id)).filter
    (fun p => (s.fileTags.filter (fun q => q.1 == p.1)).length == 1)).length

/-- `db.CountFilesWithTag`: `select count(*) from file_tags where tid = ?`. -/
def CountFilesWithTag (s : Store) (tag : TagInfo) : Nat :=
  (s.fileTags.filter (fun p => p.2 == tag.Id)).length

/-- Rowid the next `INSERT INTO tag` receives (sqlite: one more than the
largest existing id). -/
def nextTagId (s : Store) : Int := (s.tags.foldl (fun m t => max m t.Id) 0) + 1

/-- Rowid the next `INSERT INTO file_md` receives. -/
def nextFileId (s : Store) : Int := (s.files.foldl (fun m f => max m f.Id) 0) + 1

/-- `INSERT OR IGNORE INTO tag_assoc VALUES (?,?)`: a no-op when the
`(t1, t2)` primary key is already present. -/
def insertOrIgnoreAssoc (s : Store) (a b : Int) : Store :=
  if s.tagAssoc.any (fun p => p.1 == a && p.2 == b) then s
  else { s with tagAssoc := s.tagAssoc ++ [(a, b)] }

/-- `db.AddTag`: looks up the tag; inserts it when absent (`existingTag.Id <
0`); then, for every context tag, runs `INSERT OR IGNORE INTO tag_assoc
VALUES (min, max)` — with no guard against the context containing the new tag
itself.  The `db.Begin`/`tx.Commit` pair in the source carries no effect on
these statements: they are issued through `db.Exec` on the connection pool,
not through `tx`, so each one auto-commits on its own (see
`CreateFileInPath`). -/
def AddTag (s : Store) (newTag : String) (tagContext : List TagInfo) : TagInfo × Store :=
  let existingTag := FindTag s newTag
  let p :=
    if existingTag.Id < 0 then
      let i := nextTagId s
      (TagInfo.mk i newTag, { s with tags := s.tags ++ [⟨i, newTag⟩] })
    else (existingTag, s)
  let s2 := tagContext.foldl
    (fun acc c => insertOrIgnoreAssoc acc (min c.Id p.1.Id) (max c.Id p.1.Id)) p.2
  (p.1, s2)

/-- `db.UnassociateTag`: `DELETE FROM tag_assoc where t1 = ? and t2 = ?` with
the canonical `(min, max)` ordering. -/
def UnassociateTag (s : Store) (tagOne tagTwo : TagInfo) : Store :=
  let rest := s.tagAssoc.filter
    (fun p => !(p.1 == min tagOne.Id tagTwo.Id && p.2 == max tagOne.Id tagTwo.Id))
  { s with tagAssoc := rest }

/-- `db.DeleteTag`: delete every `tag_assoc` row mentioning the tag, then the
`tag` row itself. -/
def DeleteTag (s : Store) (t : TagInfo) : Store :=
  { s with
    tagAssoc := s.tagAssoc.filter (fun p => !(p.1 == t.Id || p.2 == t.Id)),
    tags := s.tags.filter (fun x => !(x.Id == t.Id)) }

/-- One iteration of the `UntagFiles` loop:
`DELETE FROM FILE_TAGS WHERE FID = ? AND TID = ?`. -/
def untagOne (tid : Int) (s : Store) (f : FileInfo) : Store :=
  { s with fileTags := s.fileTags.filter (fun p => !(p.1 == f.Id && p.2 == tid)) }

/-- `db.UntagFiles`: fetch the files carrying every tag of `path`, then delete
the membership row pairing each of them with the last tag of `path`.  The
error of `GetFilesWithTags` (only possible for an empty `path`) is
propagated. -/
def UntagFiles (s : Store) (path : List TagInfo) : Except Unit Store :=
  match GetFilesWithTags s path "" with
  | .error e => .error e
  | .ok files =>
    if files.isEmpty then .ok s
    else .ok (files.foldl (untagOne (path.getLastD UnknownTag).Id) s)

/-- The `CreateFileInPath` tagging loop: plain `INSERT INTO FILE_TAGS (fid,
tid) VALUES (?,?)` per tag; a duplicate `(fid, tid)` primary key makes the
statement fail, and the loop returns with the rows inserted so far still in
place. -/
def insertFileTagsLoop (fid : Int) (s : Store) : List TagInfo → Bool × Store
  | [] => (true, s)
  | t :: rest =>
    if s.fileTags.any (fun p => p.1 == fid && p.2 == t.Id) then (false, s)
    else insertFileTagsLoop fid { s with fileTags := s.fileTags ++ [(fid, t.Id)] } rest

/-- `db.CreateFileInPath`: inserts the `file_md` row, then one `file_tags` row
per tag of `tagPath`.  The source brackets the calls with `tx, _ :=
db.Begin()` … `tx.Rollback()`/`tx.Commit()`, but every statement is executed
with `db.Exec`, which draws a connection from the pool rather than using the
one `tx` is bound to; in Go's `database/sql` such statements run outside the
transaction and auto-commit immediately, and `tx.Rollback()` undoes none of
them.  The embedding therefore applies each statement to the store as it
executes, and on a failed statement returns the store as mutated so far. -/
def CreateFileInPath (s : Store) (name absPath : String) (tagPath : List TagInfo) :
    Except Unit FileInfo × Store :=
  let newId := nextFileId s
  let s1 := { s with files := s.files ++ [⟨newId, name, absPath⟩] }
  match insertFileTagsLoop newId s1 tagPath with
  | (true, s2) => (.ok ⟨newId, name, absPath⟩, s2)
  | (false, s2) => (.error (), s2)

/-- A store is well formed when tag texts are unique (the `tag_idx` UNIQUE
index) and every tag id is a genuine sqlite rowid (≥ 1). -/
def WfStore (s : Store) : Prop :=
  (s.tags.map (fun t => t.Text)).Nodup ∧ ∀ t ∈ s.tags, 1 ≤ t.Id

instance : DecidablePred WfStore := fun s => by
  unfold WfStore; infer_instance

/-!
The FUSE layer (package `cotfs`, file cotfs.go).  A `Dir` node carries its
tag path (`nil` for the root); a `File` node wraps a `FileInfo`.  The errnos
the layer produces are `fuse.ENOENT`, `syscall.ENOTEMPTY`, `fuse.EPERM`, and
pass-through storage errors (collapsed into one constructor here).
-/

/-- Result node of a FUSE operation. -/
inductive Node where
  | dir (path : List TagInfo)
  | file (info : FileInfo)
deriving DecidableEq, Repr

/-- Errnos surfaced by the directory engine. -/
inductive Errno where
  | ENOENT
  | ENOTEMPTY
  | EPERM
  | storageErr
deriving DecidableEq, Repr

/-- One entry of a `ReadDirAll` listing (`fuse.Dirent`): a name plus the
directory/file type bit. -/
structure Dirent where
  Name : String
  IsDir : Bool
deriving DecidableEq, Repr

/-- Value-level semantics of `appendIfNotFound`: the contents of the sequence
it returns.  (The aliasing behaviour of the Go slice version is modelled
separately below with an explicit heap.) -/
def appendIfNotFoundList (tags : List TagInfo) (newTag : TagInfo) : List TagInfo :=
  if tags.any (fun t => t.Text == newTag.Text) then tags else tags ++ [newTag]

/-- `Dir.ReadDirAll`: sub-directories from `GetCoincidentTags(path, "")`, and,
only when the path is non-empty, file entries from
`GetFilesWithTags(path, "")` (whose error is propagated). -/
def ReadDirAll (s : Store) (path : List TagInfo) : Except Unit (List Dirent) :=
  let dirs := (GetCoincidentTags s path "").map (fun t => Dirent.mk t.Text true)
  if path.isEmpty then .ok dirs
  else
    match GetFilesWithTags s path "" with
    | .error e => .error e
    | .ok files => .ok (dirs ++ files.map (fun f => Dirent.mk f.Name false))

/-- The tag-resolution step of `Dir.Lookup`: `FindTag` at the root, else
`GetCoincidentTag(name, path[0].Text)`. -/
def lookupResolve (s : Store) (path : List TagInfo) (name : String) : TagInfo :=
  if path.isEmpty then FindTag s name
  else GetCoincidentTag s name (path.headD UnknownTag).Text

/-- `Dir.Lookup` with the outcome of the `GetFilesWithTags` call passed in
explicitly, so that storage failures of that query can be examined.  The
source reads `info, _ := db.GetFilesWithTags(...)`: the error is discarded
and `info` is `nil` when the query failed. -/
def LookupWith (s : Store) (path : List TagInfo) (name : String)
    (filesRes : Except Unit (List FileInfo)) : Except Errno Node :=
  let foundTag := lookupResolve s path name
  if foundTag.Id != UnknownTag.Id then .ok (.dir (appendIfNotFoundList path foundTag))
  else
    let info := filesRes.toOption.getD []
    match info with
    | f :: _ => .ok (.file f)
    | [] => .error .ENOENT

/-- `Dir.Lookup` proper: the files query is the one the code issues. -/
def Lookup (s : Store) (path : List TagInfo) (name : String) : Except Errno Node :=
  LookupWith s path name (GetFilesWithTags s path name)

/-- `Dir.Mkdir`: `AddTag(name, path)` then a child `Dir` at
`appendIfNotFound(path, tag)`. -/
def Mkdir (s : Store) (path : List TagInfo) (name : String) : Node × Store :=
  let r := AddTag s name path
  (.dir (appendIfNotFoundList path r.1), r.2)

/-- The tag-resolution step of `Dir.handleTagRm`: `GetTag` at the root, else
`GetCoincidentTag(name, path[0].Text)`. -/
def rmResolve (s : Store) (path : List TagInfo) (name : String) : TagInfo :=
  if path.isEmpty then GetTag s name
  else GetCoincidentTag s name (path.headD UnknownTag).Text

/-- `Dir.handleTagRm` (`rmdir`): resolve the tag (missing → `ENOENT`); refuse
with `ENOTEMPTY` when some file has only this tag; `UntagFiles` on the path
plus the target; for a non-root directory sever the parent `tag_assoc` pair
(the source ignores `UnassociateTag`'s error); then delete the tag when no
membership remains, else return `ENOTEMPTY`.  Returns the result paired with
the store state after the call. -/
def handleTagRm (s : Store) (path : List TagInfo) (name : String) :
    Except Errno Unit × Store :=
  let dirTag := rmResolve s path name
  if dirTag.Id == UnknownTag.Id then (.error .ENOENT, s)
  else if 0 < GetFileCountWithSingleTag s dirTag then (.error .ENOTEMPTY, s)
  else
    match UntagFiles s (appendIfNotFoundList path dirTag) with
    | .error _ => (.error .storageErr, s)
    | .ok s1 =>
      let s2 := if path.isEmpty then s1 else UnassociateTag s1 (path.getLastD UnknownTag) dirTag
      if CountFilesWithTag s2 dirTag == 0 then (.ok (), DeleteTag s2 dirTag)
      else (.error .ENOTEMPTY, s2)

/-- `strings.Split` on a separator character, over the character list of the
string (Go and Lean agree: splitting the empty string yields `[[]]`, and
leading/trailing separators yield empty segments). -/
def splitChars (sep : Char) : List Char → List (List Char)
  | [] => [[]]
  | c :: rest =>
    match splitChars sep rest with
    | [] => [[c]]
    | h :: t => if c == sep then [] :: h :: t else (c :: h) :: t

/-- `strings.Join` on a separator character. -/
def joinSep (sep : Char) : List (List Char) → List Char
  | [] => []
  | [x] => x
  | x :: rest => x ++ sep :: joinSep sep rest

/-- The token walk of `convertToAbsolutePath`: `.` is skipped; the final token
becomes the file name (checked before the `..` case, so a trailing `..`
becomes the file name); `..` pops the working directory with the unguarded
`cwd = cwd[:len(cwd)-1]`, which on an empty working directory is a
slice-bounds panic, modelled as `none`; anything else is pushed. -/
def walkTokens (cwd : List (List Char)) : List (List Char) → Option (List (List Char) × List Char)
  | [] => some (cwd, [])
  | [t] => if t = ['.'] then some (cwd, []) else some (cwd, t)
  | t :: rest =>
    if t = ['.'] then walkTokens cwd rest
    else if t = ['.', '.'] then
      match cwd with
      | [] => none
      | _ :: _ => walkTokens cwd.dropLast rest
    else walkTokens (cwd ++ [t]) rest

/-- `convertToAbsolutePath`: a target starting with the separator is split at
its last separator; otherwise the context tag texts are materialised under
the mount point and the target's tokens are walked over that working
directory.  `none` models the slice-bounds panic of the unguarded `..` pop. -/
def convertToAbsolutePath (mountPoint : String) (path : List TagInfo) (newPath : String) :
    Option (String × String) :=
  match newPath.data with
  | '/' :: _ =>
    let toks := splitChars '/' newPath.data
    some (⟨joinSep '/' toks.dropLast⟩, ⟨toks.getLastD []⟩)
  | _ =>
    let cwd0 := path.map (fun t => t.Text.data)
    let mountSplit := splitChars '/' mountPoint.data
    let cwd1 := if mountSplit.headD [] = [] then mountSplit.tail ++ cwd0 else mountSplit ++ cwd0
    match walkTokens cwd1 (splitChars '/' newPath.data) with
    | none => none
    | some (cwdF, fn) => some (⟨'/' :: joinSep '/' cwdF⟩, ⟨fn⟩)

/-!
Go-slice model for `appendIfNotFound`.  A slice is a view `(arrId, off, len,
cap)` into a heap of backing arrays; `append` writes in place when spare
capacity exists (sharing the backing array with the caller) and allocates a
fresh array only when the slice is at capacity.
-/

/-- The heap of backing arrays. -/
abbrev Heap := List (List TagInfo)

/-- A Go slice header: backing array id, offset, length, capacity. -/
structure GoSlice where
  arrId : Nat
  off : Nat
  len : Nat
  cap : Nat
deriving DecidableEq, Repr

/-- The elements a slice exposes. -/
def sliceView (h : Heap) (s : GoSlice) : List TagInfo :=
  ((h.getD s.arrId []).drop s.off).take s.len

/-- The Go zero value of `metadata.TagInfo`, filling unwritten capacity. -/
def zeroTag : TagInfo := ⟨0, ""⟩

/-- Go's `append(s, v)`: in place into the spare capacity when `len < cap`
(the result shares the caller's backing array); otherwise a fresh, larger
backing array is allocated and the contents copied. -/
def goAppend (h : Heap) (s : GoSlice) (v : TagInfo) : Heap × GoSlice :=
  if s.len < s.cap then
    (h.set s.arrId ((h.getD s.arrId []).set (s.off + s.len) v),
     ⟨s.arrId, s.off, s.len + 1, s.cap⟩)
  else
    let newCap := max (2 * s.cap) (s.len + 1)
    let arr := sliceView h s ++ [v] ++ List.replicate (newCap - (s.len + 1)) zeroTag
    (h ++ [arr], ⟨h.length, 0, s.len + 1, newCap⟩)

/-- `appendIfNotFound` over the Go-slice model: return the slice unchanged
when some element has the new tag's text, else `append`. -/
def appendIfNotFound (h : Heap) (tags : GoSlice) (newTag : TagInfo) : Heap × GoSlice :=
  if (sliceView h tags).any (fun t => t.Text == newTag.Text) then (h, tags)
  else goAppend h tags newTag

/-- A slice header is valid for a heap when its array exists, the view fits
inside the backing array, and the length is within capacity. -/
def WfSlice (h : Heap) (s : GoSlice) : Prop :=
  s.arrId < h.length ∧ s.off + s.cap ≤ (h.getD s.arrId []).length ∧ s.len ≤ s.cap

instance (h : Heap) (s : GoSlice) : Decidable (WfSlice h s) := by
  unfold WfSlice; infer_instance

/-- A file has tag `tid` as its sole membership: its `(fid, tid)` row exists
and it has exactly one `file_tags` row in total. -/
def HasSoleTag (s : Store) (fid tid : Int) : Prop :=
  (fid, tid) ∈ s.fileTags ∧ (s.fileTags.filter (fun q => q.1 == fid)).length = 1

instance (s : Store) (fid tid : Int) : Decidable (HasSoleTag s fid tid) := by
  unfold HasSoleTag; infer_instance

/-!
Concrete store instances used by witnesses and counterexamples.
-/

/-- Store with one file `img.jpg` carrying tags `media` and `image`. -/
def sC1 : Store := ⟨[⟨1, "media"⟩, ⟨2, "image"⟩], [⟨1, "img.jpg", "/d"⟩], [(1, 1), (1, 2)], [(1, 2)]⟩

/-- Store with one file whose sole tag is `solo`. -/
def sC2 : Store := ⟨[⟨1, "solo"⟩], [⟨10, "f", "/p"⟩], [(10, 1)], []⟩

/-- Store with files `f1 : {a,b}` and `f2 : {b,c}` and the pair `(a,b)`. -/
def sC3 : Store :=
  ⟨[⟨1, "a"⟩, ⟨2, "b"⟩, ⟨3, "c"⟩], [⟨10, "f1", "/p1"⟩, ⟨20, "f2", "/p2"⟩],
   [(10, 1), (10, 2), (20, 2), (20, 3)], [(1, 2)]⟩

/-- `sC3` after `UntagFiles` removed tag `b` from `f1`. -/
def sC3b : Store :=
  ⟨[⟨1, "a"⟩, ⟨2, "b"⟩, ⟨3, "c"⟩], [⟨10, "f1", "/p1"⟩, ⟨20, "f2", "/p2"⟩],
   [(10, 1), (20, 2), (20, 3)], [(1, 2)]⟩

/-- `sC3b` after `UnassociateTag` removed the pair `(a,b)`. -/
def sC3c : Store :=
  ⟨[⟨1, "a"⟩, ⟨2, "b"⟩, ⟨3, "c"⟩], [⟨10, "f1", "/p1"⟩, ⟨20, "f2", "/p2"⟩],
   [(10, 1), (20, 2), (20, 3)], []⟩

/-- Store with a single tag `t`. -/
def sC4 : Store := ⟨[⟨1, "t"⟩], [], [], []⟩

/-- Store with a single tag `a`. -/
def sC5 : Store := ⟨[⟨1, "a"⟩], [], [], []⟩

/-- Store with tags `a` and `b` and the pair `(a,b)`. -/
def sC6 : Store := ⟨[⟨1, "a"⟩, ⟨2, "b"⟩], [], [], [(1, 2)]⟩

/-- Store with the single tag `photo`. -/
def sC7 : Store := ⟨[⟨1, "photo"⟩], [], [], []⟩

/-- Heap with one backing array of capacity 2 holding one live element. -/
def hC8 : Heap := [[⟨1, "a"⟩, zeroTag]]

/-- Slice of length 1 into `hC8` with spare capacity. -/
def slC8 : GoSlice := ⟨0, 0, 1, 2⟩

/-- Heap with one full backing array of capacity 1. -/
def hC8w : Heap := [[⟨1, "a"⟩]]

/-- Slice at capacity into `hC8w`. -/
def slC8w : GoSlice := ⟨0, 0, 1, 1⟩

/-- The empty store. -/
def sC10 : Store := ⟨[], [], [], []⟩

/-!
Theorems.  Helper lemmas first, then one theorem per claim (with witnesses
and counterexamples as required).
-/

theorem perm_all_eq {α : Type} (f : α → Bool) {p q : List α} (h : List.Perm p q) :
    p.all f = q.all f := by
  apply Bool.eq_iff_iff.mpr
  simp only [List.all_eq_true]
  constructor <;> intro hh x hx
  · exact hh x (h.mem_iff.mpr hx)
  · exact hh x (h.mem_iff.mp hx)

theorem GetCoincidentTags_perm (s : Store) {p q : List TagInfo} (name : String)
    (h : List.Perm p q) : GetCoincidentTags s p name = GetCoincidentTags s q name := by
  unfold GetCoincidentTags
  by_cases hp : p = []
  · subst hp
    have hq : q = [] := h.symm.eq_nil
    subst hq
    rfl
  · have hq : q ≠ [] := fun h0 => hp (h0 ▸ h).eq_nil
    rw [List.isEmpty_eq_false.mpr hp, List.isEmpty_eq_false.mpr hq]
    have hfilter : s.tags.filter (fun ot => p.all fun c => peerOf s c.Text ot.Id) =
        s.tags.filter (fun ot => q.all fun c => peerOf s c.Text ot.Id) :=
      List.filter_congr (fun ot _ => perm_all_eq (fun c => peerOf s c.Text ot.Id) h)
    simp only [hfilter]

theorem GetFilesWithTags_perm (s : Store) {p q : List TagInfo} (name : String)
    (h : List.Perm p q) : GetFilesWithTags s p name = GetFilesWithTags s q name := by
  unfold GetFilesWithTags
  by_cases hp : p = []
  · subst hp
    have hq : q = [] := h.symm.eq_nil
    subst hq
    rfl
  · have hq : q ≠ [] := fun h0 => hp (h0 ▸ h).eq_nil
    rw [List.isEmpty_eq_false.mpr hp, List.isEmpty_eq_false.mpr hq]
    have hfilter : s.files.filter (fun f => p.all fun t => s.fileTags.any fun ft =>
        ft.1 == f.Id && s.tags.any fun tr => tr.Id == ft.2 && tr.Text == t.Text) =
        s.files.filter (fun f => q.all fun t => s.fileTags.any fun ft =>
        ft.1 == f.Id && s.tags.any fun tr => tr.Id == ft.2 && tr.Text == t.Text) :=
      List.filter_congr (fun f _ => perm_all_eq _ h)
    simp only [hfilter]

/-- C1: for every tag set whose tags all exist in the store and every
permutation of it, `ReadDirAll` yields the same directory entries and the
same file entries: `GetCoincidentTags` intersects the peer sets of all
context tags and `GetFilesWithTags` requires every tag, both independently
of argument order. -/
theorem claim_c1 (s : Store) (p q : List TagInfo) (hperm : List.Perm p q)
    (hex : ∀ t ∈ p, t ∈ s.tags) : ReadDirAll s p = ReadDirAll s q := by
  have hemp : p.isEmpty = q.isEmpty := by
    cases p <;> cases q <;> first
      | rfl
      | (exfalso; have := hperm.length_eq; simp at this)
  unfold ReadDirAll
  rw [GetCoincidentTags_perm s "" hperm, GetFilesWithTags_perm s "" hperm, hemp]

/-- Witness for C1: in a concrete store, listing `/media/image` and
`/image/media` produce identical entries. -/
theorem claim_c1_witness :
    List.Perm [TagInfo.mk 1 "media", TagInfo.mk 2 "image"]
      [TagInfo.mk 2 "image", TagInfo.mk 1 "media"] ∧
    ReadDirAll sC1 [TagInfo.mk 1 "media", TagInfo.mk 2 "image"] =
      ReadDirAll sC1 [TagInfo.mk 2 "image", TagInfo.mk 1 "media"] ∧
    ReadDirAll sC1 [TagInfo.mk 1 "media", TagInfo.mk 2 "image"] =
      .ok [Dirent.mk "img.jpg" false] := by
  refine ⟨List.Perm.swap _ _ _, ?_, by decide⟩
  exact claim_c1 sC1 _ _ (List.Perm.swap _ _ _) (by decide)

/-- C10: when the name resolves to no tag and the `GetFilesWithTags` query
fails with a storage error, `Lookup` discards the error and returns `ENOENT`. -/
theorem claim_c10 (s : Store) (path : List TagInfo) (name : String)
    (hno : (lookupResolve s path name).Id = UnknownTag.Id) :
    LookupWith s path name (.error ()) = .error .ENOENT := by
  unfold LookupWith
  simp [hno, Except.toOption]

/-- Witness for C10: at the root of the empty store, a failing files query
surfaces as `ENOENT`. -/
theorem claim_c10_witness :
    (lookupResolve sC10 [] "x").Id = UnknownTag.Id ∧
    LookupWith sC10 [] "x" (.error ()) = .error .ENOENT :=
  ⟨by decide, claim_c10 sC10 [] "x" (by decide)⟩

/-- C9: the relative branch of `convertToAbsolutePath` is not total — a
relative target with more `..` segments than the working path has entries
drives the unguarded `cwd = cwd[:len(cwd)-1]` pop into a slice-bounds
failure (modelled as `none`) instead of producing a `(directory, name)`
pair. -/
theorem claim_c9 :
    ∃ (path : List TagInfo) (target : String),
      (target.data.headD ' ' ≠ '/') ∧
      convertToAbsolutePath "/mymnt/tmp" path target = none :=
  ⟨[], "../../../f", by decide, by decide⟩

/-- C4: `CreateFileInPath` is not atomic.  The source opens a transaction
with `db.Begin()` but issues every statement through `db.Exec`, which runs
on a pool connection outside that transaction and auto-commits; when the
second `file_tags` insert fails (duplicate `(fid, tid)` primary key for a
repeated tag in `tagPath`), the call reports an error while the `file_md`
row and the first `file_tags` row remain committed, so the store state after
the failing call differs from the state before it. -/
theorem claim_c4_violation :
    (CreateFileInPath sC4 "f" "/p" [⟨1, "t"⟩, ⟨1, "t"⟩]).1 = .error () ∧
    (CreateFileInPath sC4 "f" "/p" [⟨1, "t"⟩, ⟨1, "t"⟩]).2 ≠ sC4 ∧
    (CreateFileInPath sC4 "f" "/p" [⟨1, "t"⟩, ⟨1, "t"⟩]).2.files = [⟨1, "f", "/p"⟩] ∧
    (CreateFileInPath sC4 "f" "/p" [⟨1, "t"⟩, ⟨1, "t"⟩]).2.fileTags = [(1, 1)] := by
  decide

/-- C5: invariant I4 fails.  `AddTag` has no `t.id ≠ new.id` guard on its
co-occurrence loop, so `Mkdir` of a name already present in the current
tag-path inserts the self-pair `(x, x)` into `tag_assoc`: after
`Mkdir("a")` in the directory `/a`, the committed store contains the row
`(1, 1)`, which does not reference two distinct tag ids. -/
theorem claim_c5_violation :
    (Mkdir sC5 [⟨1, "a"⟩] "a").2.tagAssoc = [(1, 1)] ∧
    ∃ p ∈ (Mkdir sC5 [⟨1, "a"⟩] "a").2.tagAssoc, p.1 = p.2 := by
  decide

theorem find?_text_of_nodup (l : List TagInfo) (t : TagInfo)
    (hnd : (l.map (fun x => x.Text)).Nodup) (ht : t ∈ l) :
    l.find? (fun x => x.Text == t.Text) = some t := by
  induction l with
  | nil => cases ht
  | cons hd rest ih =>
    simp only [List.map_cons, List.nodup_cons] at hnd
    rcases List.mem_cons.mp ht with rfl | hmem
    · exact List.find?_cons_of_pos _ (by simp)
    · have hne : ¬ (hd.Text == t.Text) = true := by
        simp only [beq_iff_eq]
        intro heq
        exact hnd.1 (heq ▸ List.mem_map_of_mem (fun x => x.Text) hmem)
      rw [List.find?_cons_of_neg (a := hd) rest hne]
      exact ih hnd.2 hmem

theorem singleTagCount_eq_zero (s : Store) (t : TagInfo) :
    GetFileCountWithSingleTag s t = 0 ↔ ∀ fid, ¬ HasSoleTag s fid t.Id := by
  unfold GetFileCountWithSingleTag HasSoleTag
  rw [List.length_eq_zero, List.filter_eq_nil_iff]
  constructor
  · intro h fid hsole
    have hmem : (fid, t.Id) ∈ s.fileTags.filter (fun p => p.2 == t.Id) :=
      List.mem_filter.mpr ⟨hsole.1, by simp⟩
    exact h (fid, t.Id) hmem (by simp [hsole.2])
  · intro h p hp hlen
    obtain ⟨hpmem, hpt⟩ := List.mem_filter.mp hp
    have hp2 : p.2 = t.Id := by simpa using hpt
    have hlen1 : (s.fileTags.filter (fun q => q.1 == p.1)).length = 1 := by simpa using hlen
    exact h p.1 ⟨by rw [← hp2]; exact hpmem, hlen1⟩

/-- C2: `rmdir(T)` at the root succeeds only if no file has `{T}` as its full
tag set, and when some file's sole membership is `T` the call returns
`ENOTEMPTY` with the store unchanged. -/
theorem claim_c2 (s : Store) (t : TagInfo) (hwf : WfStore s) (ht : t ∈ s.tags) :
    ((handleTagRm s [] t.Text).1 = .ok () → ∀ fid, ¬ HasSoleTag s fid t.Id) ∧
    ((∃ fid, HasSoleTag s fid t.Id) → handleTagRm s [] t.Text = (.error .ENOTEMPTY, s)) := by
  have hres : rmResolve s [] t.Text = t := by
    simp [rmResolve, GetTag, find?_text_of_nodup s.tags t hwf.1 ht]
  have hid : (t.Id == UnknownTag.Id) = false := by
    have h1 := hwf.2 t ht
    simp only [UnknownTag, beq_eq_false_iff_ne, ne_eq]
    intro heq
    rw [heq] at h1
    omega
  constructor
  · intro hok
    by_contra hcon
    push_neg at hcon
    obtain ⟨fid, hsole⟩ := hcon
    have hpos : 0 < GetFileCountWithSingleTag s t := by
      rcases Nat.eq_zero_or_pos (GetFileCountWithSingleTag s t) with hz | hp
      · exact ((singleTagCount_eq_zero s t).mp hz fid hsole).elim
      · exact hp
    have hrm : handleTagRm s [] t.Text = (.error .ENOTEMPTY, s) := by
      simp [handleTagRm, hres, hid, hpos]
    rw [hrm] at hok
    simp at hok
  · intro ⟨fid, hsole⟩
    have hpos : 0 < GetFileCountWithSingleTag s t := by
      rcases Nat.eq_zero_or_pos (GetFileCountWithSingleTag s t) with hz | hp
      · exact ((singleTagCount_eq_zero s t).mp hz fid hsole).elim
      · exact hp
    simp [handleTagRm, hres, hid, hpos]

/-- Witness for C2: removing `solo`, the sole tag of the single file in
`sC2`, returns `ENOTEMPTY` and leaves the store untouched. -/
theorem claim_c2_witness :
    WfStore sC2 ∧ TagInfo.mk 1 "solo" ∈ sC2.tags ∧
    handleTagRm sC2 [] "solo" = (.error .ENOTEMPTY, sC2) :=
  ⟨by decide, by decide,
    (claim_c2 sC2 ⟨1, "solo"⟩ (by decide) (by decide)).2 ⟨10, by decide⟩⟩

theorem rmResolve_mem (s : Store) (path : List TagInfo) (name : String) (t : TagInfo)
    (hres : rmResolve s path name = t) (hid : t.Id ≠ UnknownTag.Id) : t ∈ s.tags := by
  unfold rmResolve GetTag GetCoincidentTag at hres
  by_cases hp : path.isEmpty
  · rw [if_pos hp] at hres
    cases hf : s.tags.find? (fun x => x.Text == name) with
    | none => rw [hf] at hres; simp [Option.getD] at hres; exact absurd hres.symm (fun h => hid (by rw [← h]))
    | some u =>
      rw [hf] at hres
      simp [Option.getD] at hres
      exact hres ▸ List.mem_of_find?_eq_some hf
  · rw [if_neg hp] at hres
    cases hf : s.tags.find? (fun x => x.Text == name && peerOf s (path.headD UnknownTag).Text x.Id) with
    | none => rw [hf] at hres; simp [Option.getD] at hres; exact absurd hres.symm (fun h => hid (by rw [← h]))
    | some u =>
      rw [hf] at hres
      simp [Option.getD] at hres
      exact hres ▸ List.mem_of_find?_eq_some hf

theorem foldl_untagOne_tags (tid : Int) (files : List FileInfo) (s : Store) :
    (files.foldl (untagOne tid) s).tags = s.tags := by
  induction files generalizing s with
  | nil => rfl
  | cons f rest ih => rw [List.foldl_cons, ih]; rfl

theorem UntagFiles_tags (s : Store) (p : List TagInfo) (s1 : Store)
    (h : UntagFiles s p = .ok s1) : s1.tags = s.tags := by
  unfold UntagFiles at h
  cases hg : GetFilesWithTags s p "" with
  | error e => rw [hg] at h; cases h
  | ok files =>
    rw [hg] at h
    dsimp only at h
    by_cases hf : files.isEmpty
    · rw [if_pos hf] at h; cases h; rfl
    · rw [if_neg hf] at h
      cases h
      exact foldl_untagOne_tags _ files s

/-- C3: once a tag-removal request passes the single-tag check, with `s2` the
store after `UntagFiles` on path-plus-target and (for a non-root directory)
`UnassociateTag` of the parent pair: if `CountFilesWithTag(target)` is zero
the engine deletes the target tag and returns success, and otherwise it
returns `ENOTEMPTY` while the target tag row is retained in the tag table. -/
theorem claim_c3 (s : Store) (path : List TagInfo) (name : String) (t : TagInfo)
    (s1 s2 : Store)
    (hres : rmResolve s path name = t)
    (hid : t.Id ≠ UnknownTag.Id)
    (hcnt : GetFileCountWithSingleTag s t = 0)
    (huntag : UntagFiles s (appendIfNotFoundList path t) = .ok s1)
    (hs2 : s2 = if path.isEmpty then s1 else UnassociateTag s1 (path.getLastD UnknownTag) t) :
    (CountFilesWithTag s2 t = 0 → handleTagRm s path name = (.ok (), DeleteTag s2 t)) ∧
    (CountFilesWithTag s2 t ≠ 0 →
      handleTagRm s path name = (.error .ENOTEMPTY, s2) ∧ t ∈ s2.tags) := by
  have hid' : (t.Id == UnknownTag.Id) = false := by simpa [beq_eq_false_iff_ne] using hid
  have hcnt' : ¬ 0 < GetFileCountWithSingleTag s t := by omega
  have hmem : t ∈ s.tags := rmResolve_mem s path name t hres hid
  have htags1 : s1.tags = s.tags := UntagFiles_tags s _ s1 huntag
  have htags2 : s2.tags = s.tags := by
    rw [hs2]
    by_cases hp : path.isEmpty
    · rw [if_pos hp]; exact htags1
    · rw [if_neg hp]; exact htags1
  have hrm : handleTagRm s path name =
      (if CountFilesWithTag s2 t == 0 then (.ok (), DeleteTag s2 t)
       else (.error .ENOTEMPTY, s2)) := by
    simp only [handleTagRm, hres, hid', Bool.false_eq_true, if_false, hcnt', if_false, huntag,
      ← hs2]
  constructor
  · intro h0
    rw [hrm, if_pos (by simpa using h0)]
  · intro hne
    rw [hrm, if_neg (by simpa using hne)]
    exact ⟨rfl, htags2 ▸ hmem⟩

/-- Witness for C3: removing `b` from `/a` in `sC3` (file `f2` still carries
`b` through `c`) returns `ENOTEMPTY` after the untag and unassociate steps,
and the `b` row stays in the tag table. -/
theorem claim_c3_witness :
    handleTagRm sC3 [⟨1, "a"⟩] "b" = (.error .ENOTEMPTY, sC3c) ∧ TagInfo.mk 2 "b" ∈ sC3c.tags := by
  have h := claim_c3 sC3 [⟨1, "a"⟩] "b" ⟨2, "b"⟩ sC3b sC3c (by decide) (by decide)
    (by decide) (by decide) (by decide)
  exact h.2 (by decide)

theorem insertOrIgnoreAssoc_tags (s : Store) (a b : Int) :
    (insertOrIgnoreAssoc s a b).tags = s.tags := by
  unfold insertOrIgnoreAssoc
  split <;> rfl

theorem assocFold_tags (tid : Int) (ctx : List TagInfo) (s : Store) :
    (ctx.foldl (fun acc c => insertOrIgnoreAssoc acc (min c.Id tid) (max c.Id tid)) s).tags
      = s.tags := by
  induction ctx generalizing s with
  | nil => rfl
  | cons c rest ih => rw [List.foldl_cons, ih, insertOrIgnoreAssoc_tags]

theorem mem_insertOrIgnoreAssoc_self (s : Store) (a b : Int) :
    (a, b) ∈ (insertOrIgnoreAssoc s a b).tagAssoc := by
  unfold insertOrIgnoreAssoc
  split
  · rename_i hany
    obtain ⟨p, hp, hpe⟩ := List.any_eq_true.mp hany
    simp only [Bool.and_eq_true, beq_iff_eq] at hpe
    have : p = (a, b) := by
      obtain ⟨x, y⟩ := p
      simp only [Prod.mk.injEq]
      exact hpe
    exact this ▸ hp
  · simp

theorem mem_insertOrIgnoreAssoc_mono (s : Store) (a b : Int) (x : Int × Int)
    (h : x ∈ s.tagAssoc) : x ∈ (insertOrIgnoreAssoc s a b).tagAssoc := by
  unfold insertOrIgnoreAssoc
  split
  · exact h
  · simp [h]

theorem insertOrIgnoreAssoc_of_mem (s : Store) (a b : Int) (h : (a, b) ∈ s.tagAssoc) :
    insertOrIgnoreAssoc s a b = s := by
  unfold insertOrIgnoreAssoc
  rw [if_pos (List.any_eq_true.mpr ⟨(a, b), h, by simp⟩)]

theorem assocFold_mono (tid : Int) (ctx : List TagInfo) (s : Store) (x : Int × Int)
    (h : x ∈ s.tagAssoc) :
    x ∈ (ctx.foldl (fun acc c => insertOrIgnoreAssoc acc (min c.Id tid) (max c.Id tid)) s).tagAssoc := by
  induction ctx generalizing s with
  | nil => exact h
  | cons c rest ih =>
    rw [List.foldl_cons]
    exact ih _ (mem_insertOrIgnoreAssoc_mono _ _ _ _ h)

theorem assocFold_mem (tid : Int) (ctx : List TagInfo) (s : Store) (c : TagInfo) (hc : c ∈ ctx) :
    (min c.Id tid, max c.Id tid) ∈
      (ctx.foldl (fun acc x => insertOrIgnoreAssoc acc (min x.Id tid) (max x.Id tid)) s).tagAssoc := by
  induction ctx generalizing s with
  | nil => cases hc
  | cons a rest ih =>
    rw [List.foldl_cons]
    rcases List.mem_cons.mp hc with rfl | hmem
    · exact assocFold_mono tid rest _ _ (mem_insertOrIgnoreAssoc_self s _ _)
    · exact ih _ hmem

theorem assocFold_noop (tid : Int) (ctx : List TagInfo) (s : Store)
    (h : ∀ c ∈ ctx, (min c.Id tid, max c.Id tid) ∈ s.tagAssoc) :
    ctx.foldl (fun acc x => insertOrIgnoreAssoc acc (min x.Id tid) (max x.Id tid)) s = s := by
  induction ctx with
  | nil => rfl
  | cons a rest ih =>
    rw [List.foldl_cons, insertOrIgnoreAssoc_of_mem s _ _ (h a (List.mem_cons_self a rest))]
    exact ih (fun c hc => h c (List.mem_cons_of_mem a hc))

theorem foldl_max_le_init (l : List TagInfo) (a : Int) :
    a ≤ l.foldl (fun m t => max m t.Id) a := by
  induction l generalizing a with
  | nil => exact le_refl a
  | cons t rest ih =>
    rw [List.foldl_cons]
    exact le_trans (le_max_left a t.Id) (ih (max a t.Id))

theorem nextTagId_pos (s : Store) : 1 ≤ nextTagId s := by
  unfold nextTagId
  have := foldl_max_le_init s.tags 0
  omega

/-- C7: `AddTag(x, ctx)` is idempotent — a second call with the same
arguments returns the same tag and leaves the store bit-identical to the
state after the first call. -/
theorem claim_c7 (s : Store) (x : String) (ctx : List TagInfo) (hwf : WfStore s)
    (_hctx : ∀ c ∈ ctx, c ∈ s.tags) :
    AddTag (AddTag s x ctx).2 x ctx = AddTag s x ctx := by
  cases hf : s.tags.find? (fun t => t.Text == x) with
  | none =>
    -- the first call inserts the tag, then the pairs
    have hneg : (FindTag s x).Id < 0 := by simp [FindTag, hf, UnknownTag]
    have h1 : AddTag s x ctx = (⟨nextTagId s, x⟩,
        ctx.foldl (fun acc c =>
          insertOrIgnoreAssoc acc (min c.Id (nextTagId s)) (max c.Id (nextTagId s)))
          { s with tags := s.tags ++ [⟨nextTagId s, x⟩] }) := by
      simp only [AddTag]
      rw [if_pos hneg]
    rw [h1]
    have htags : (ctx.foldl (fun acc c =>
        insertOrIgnoreAssoc acc (min c.Id (nextTagId s)) (max c.Id (nextTagId s)))
        { s with tags := s.tags ++ [⟨nextTagId s, x⟩] }).tags
        = s.tags ++ [⟨nextTagId s, x⟩] :=
      assocFold_tags _ ctx _
    have hfind2 : (ctx.foldl (fun acc c =>
        insertOrIgnoreAssoc acc (min c.Id (nextTagId s)) (max c.Id (nextTagId s)))
        { s with tags := s.tags ++ [⟨nextTagId s, x⟩] }).tags.find?
          (fun t => t.Text == x) = some ⟨nextTagId s, x⟩ := by
      rw [htags, List.find?_append, hf]
      simp [Option.or]
    have hft2 : FindTag (ctx.foldl (fun acc c =>
        insertOrIgnoreAssoc acc (min c.Id (nextTagId s)) (max c.Id (nextTagId s)))
        { s with tags := s.tags ++ [⟨nextTagId s, x⟩] }) x = ⟨nextTagId s, x⟩ := by
      simp [FindTag, hfind2]
    have hpos2 : ¬ (FindTag (ctx.foldl (fun acc c =>
        insertOrIgnoreAssoc acc (min c.Id (nextTagId s)) (max c.Id (nextTagId s)))
        { s with tags := s.tags ++ [⟨nextTagId s, x⟩] }) x).Id < 0 := by
      rw [hft2]
      have := nextTagId_pos s
      simp only
      omega
    simp only [AddTag]
    rw [if_neg hpos2, hft2]
    have hall : ∀ c ∈ ctx, (min c.Id (nextTagId s), max c.Id (nextTagId s)) ∈
        (ctx.foldl (fun acc c =>
          insertOrIgnoreAssoc acc (min c.Id (nextTagId s)) (max c.Id (nextTagId s)))
          { s with tags := s.tags ++ [⟨nextTagId s, x⟩] }).tagAssoc :=
      fun c hc => assocFold_mem (nextTagId s) ctx _ c hc
    exact congrArg _ (assocFold_noop (nextTagId s) ctx _ hall)
  | some e =>
    have he1 : 1 ≤ e.Id := hwf.2 e (List.mem_of_find?_eq_some hf)
    have hft : FindTag s x = e := by simp [FindTag, hf]
    have hneg : ¬ (FindTag s x).Id < 0 := by rw [hft]; omega
    have h1 : AddTag s x ctx = (e,
        ctx.foldl (fun acc c =>
          insertOrIgnoreAssoc acc (min c.Id e.Id) (max c.Id e.Id)) s) := by
      simp only [AddTag]
      rw [if_neg hneg, hft]
    rw [h1]
    have htags : (ctx.foldl (fun acc c =>
        insertOrIgnoreAssoc acc (min c.Id e.Id) (max c.Id e.Id)) s).tags = s.tags :=
      assocFold_tags _ ctx s
    have hft2 : FindTag (ctx.foldl (fun acc c =>
        insertOrIgnoreAssoc acc (min c.Id e.Id) (max c.Id e.Id)) s) x = e := by
      simp [FindTag, htags, hf]
    have hpos2 : ¬ (FindTag (ctx.foldl (fun acc c =>
        insertOrIgnoreAssoc acc (min c.Id e.Id) (max c.Id e.Id)) s) x).Id < 0 := by
      rw [hft2]; omega
    simp only [AddTag]
    rw [if_neg hpos2, hft2]
    have hall : ∀ c ∈ ctx, (min c.Id e.Id, max c.Id e.Id) ∈
        (ctx.foldl (fun acc c =>
          insertOrIgnoreAssoc acc (min c.Id e.Id) (max c.Id e.Id)) s).tagAssoc :=
      fun c hc => assocFold_mem e.Id ctx s c hc
    exact congrArg _ (assocFold_noop e.Id ctx _ hall)

/-- Witness for C7: adding `travel` twice under the context `[photo]` gives
the same tag and the same store. -/
theorem claim_c7_witness :
    WfStore sC7 ∧
    AddTag (AddTag sC7 "travel" [⟨1, "photo"⟩]).2 "travel" [⟨1, "photo"⟩] =
      AddTag sC7 "travel" [⟨1, "photo"⟩] :=
  ⟨by decide, claim_c7 sC7 "travel" [⟨1, "photo"⟩] (by decide) (by decide)⟩

theorem textLe_total (a b : List Char) : textLe a b = true ∨ textLe b a = true := by
  induction a generalizing b with
  | nil => left; rfl
  | cons x xs ih =>
    cases b with
    | nil => right; rfl
    | cons y ys =>
      by_cases h1 : x.toNat < y.toNat
      · left; simp [textLe, h1]
      · by_cases h2 : y.toNat < x.toNat
        · right; simp [textLe, h2]
        · rcases ih ys with h | h
          · left; simp [textLe, h1, h2, h]
          · right; simp [textLe, h1, h2, h]

theorem textLe_trans (a b c : List Char) (hab : textLe a b = true) (hbc : textLe b c = true) :
    textLe a c = true := by
  induction a generalizing b c with
  | nil => rfl
  | cons x xs ih =>
    cases b with
    | nil => simp [textLe] at hab
    | cons y ys =>
      cases c with
      | nil => simp [textLe] at hbc
      | cons z zs =>
        simp only [textLe] at hab hbc ⊢
        by_cases hxy : x.toNat < y.toNat <;> by_cases hyz : y.toNat < z.toNat <;>
          by_cases hyx : y.toNat < x.toNat <;> by_cases hzy : z.toNat < y.toNat <;>
          simp only [hxy, hyz, hyx, hzy, if_true, if_false, if_pos, if_neg] at hab hbc ⊢ <;>
          first
            | rfl
            | omega
            | (rw [if_pos (by omega : x.toNat < z.toNat)])
            | (rw [if_neg (by omega : ¬ x.toNat < z.toNat), if_neg (by omega : ¬ z.toNat < x.toNat)]
               exact ih ys zs hab hbc)
            | simp at hab
            | simp at hbc

theorem tagLe_total (a b : TagInfo) : tagLe a b = true ∨ tagLe b a = true :=
  textLe_total a.Text.data b.Text.data

theorem tagLe_trans (a b c : TagInfo) (hab : tagLe a b = true) (hbc : tagLe b c = true) :
    tagLe a c = true :=
  textLe_trans a.Text.data b.Text.data c.Text.data hab hbc

theorem mem_insertAsc (t : TagInfo) (l : List TagInfo) (x : TagInfo) :
    x ∈ insertAsc t l ↔ x = t ∨ x ∈ l := by
  induction l with
  | nil => simp [insertAsc]
  | cons h rest ih =>
    unfold insertAsc
    split
    · simp only [List.mem_cons, ih]
      tauto
    · simp only [List.mem_cons]

theorem pairwise_insertAsc (t : TagInfo) (l : List TagInfo)
    (h : l.Pairwise (fun a b => tagLe a b = true)) :
    (insertAsc t l).Pairwise (fun a b => tagLe a b = true) := by
  induction l with
  | nil => simp [insertAsc]
  | cons hd rest ih =>
    rw [List.pairwise_cons] at h
    unfold insertAsc
    split
    · rename_i hle
      rw [List.pairwise_cons]
      constructor
      · intro y hy
        rcases (mem_insertAsc t rest y).mp hy with rfl | hmem
        · exact hle
        · exact h.1 y hmem
      · exact ih h.2
    · rename_i hnle
      have htl : tagLe t hd = true := by
        rcases tagLe_total hd t with hh | hh
        · exact absurd hh hnle
        · exact hh
      rw [List.pairwise_cons]
      constructor
      · intro y hy
        rcases List.mem_cons.mp hy with rfl | hmem
        · exact htl
        · exact tagLe_trans t hd y htl (h.1 y hmem)
      · rw [List.pairwise_cons]
        exact h
    
theorem pairwise_sortAsc (l : List TagInfo) :
    (sortAscByText l).Pairwise (fun a b => tagLe a b = true) := by
  induction l with
  | nil => simp [sortAscByText]
  | cons h rest ih => exact pairwise_insertAsc h _ ih

theorem mem_sortAsc (l : List TagInfo) (x : TagInfo) : x ∈ sortAscByText l ↔ x ∈ l := by
  induction l with
  | nil => simp [sortAscByText]
  | cons h rest ih =>
    show x ∈ insertAsc h (sortAscByText rest) ↔ _
    rw [mem_insertAsc, ih]
    simp

theorem mem_insertDesc (t : TagInfo) (l : List TagInfo) (x : TagInfo) :
    x ∈ insertDesc t l ↔ x = t ∨ x ∈ l := by
  induction l with
  | nil => simp [insertDesc]
  | cons h rest ih =>
    unfold insertDesc
    split
    · simp only [List.mem_cons, ih]
      tauto
    · simp only [List.mem_cons]

theorem pairwise_insertDesc (t : TagInfo) (l : List TagInfo)
    (h : l.Pairwise (fun a b => tagLe b a = true)) :
    (insertDesc t l).Pairwise (fun a b => tagLe b a = true) := by
  induction l with
  | nil => simp [insertDesc]
  | cons hd rest ih =>
    rw [List.pairwise_cons] at h
    unfold insertDesc
    split
    · rename_i hle
      rw [List.pairwise_cons]
      constructor
      · intro y hy
        rcases (mem_insertDesc t rest y).mp hy with rfl | hmem
        · exact hle
        · exact h.1 y hmem
      · exact ih h.2
    · rename_i hnle
      have htl : tagLe hd t = true := by
        rcases tagLe_total t hd with hh | hh
        · exact absurd hh hnle
        · exact hh
      rw [List.pairwise_cons]
      constructor
      · intro y hy
        rcases List.mem_cons.mp hy with rfl | hmem
        · exact htl
        · exact tagLe_trans y hd t (h.1 y hmem) htl
      · rw [List.pairwise_cons]
        exact h

theorem pairwise_sortDesc (l : List TagInfo) :
    (sortDescByText l).Pairwise (fun a b => tagLe b a = true) := by
  induction l with
  | nil => simp [sortDescByText]
  | cons h rest ih => exact pairwise_insertDesc h _ ih

theorem mem_sortDesc (l : List TagInfo) (x : TagInfo) : x ∈ sortDescByText l ↔ x ∈ l := by
  induction l with
  | nil => simp [sortDescByText]
  | cons h rest ih =>
    show x ∈ insertDesc h (sortDescByText rest) ↔ _
    rw [mem_insertDesc, ih]
    simp

/-- Counterexample for C6: with an empty context, `GetCoincidentTags` falls
back to `GetAllTags`, whose SQL orders by `txt DESC`, so the result is not
sorted ascending by text as the claim states — on a store with tags `a`, `b`
the listing is `[b, a]`. -/
theorem claim_c6_cex :
    GetCoincidentTags sC6 [] "" = [⟨2, "b"⟩, ⟨1, "a"⟩] ∧
    ¬ (GetCoincidentTags sC6 [] "").Pairwise (fun a b => tagLe a b = true) := by
  decide

/-- C6 (amended): with an empty context `GetCoincidentTags` returns all tags
sorted descending by text (the name filter is ignored); with a non-empty
context the result is sorted ascending by text and holds exactly the tags
that are peers of every context tag, filtered by the name predicate (exact
match without `*`, SQL `LIKE` with `*` replaced by `%`). -/
theorem claim_c6_amended (s : Store) (ctx : List TagInfo) (name : String) :
    (ctx = [] →
      GetCoincidentTags s ctx name = GetAllTags s ∧
      (GetAllTags s).Pairwise (fun a b => tagLe b a = true) ∧
      (∀ x, x ∈ GetAllTags s ↔ x ∈ s.tags)) ∧
    (ctx ≠ [] →
      (GetCoincidentTags s ctx name).Pairwise (fun a b => tagLe a b = true) ∧
      (∀ x, x ∈ GetCoincidentTags s ctx name ↔
        x ∈ s.tags ∧ (∀ c ∈ ctx, peerOf s c.Text x.Id = true) ∧
        (0 < name.length → nameFilterPred name x.Text = true))) := by
  constructor
  · intro h
    subst h
    exact ⟨rfl, pairwise_sortDesc _, fun x => mem_sortDesc _ x⟩
  · intro h
    have hne : ctx.isEmpty = false := List.isEmpty_eq_false.mpr h
    unfold GetCoincidentTags
    simp only [hne, Bool.false_eq_true, if_false]
    constructor
    · by_cases hn : 0 < name.length
      · simp only [if_pos hn]
        exact pairwise_sortAsc _
      · simp only [if_neg hn]
        exact pairwise_sortAsc _
    · intro x
      by_cases hn : 0 < name.length
      · simp only [if_pos hn]
        rw [mem_sortAsc]
        simp only [List.mem_filter, List.all_eq_true]
        constructor
        · rintro ⟨⟨hmem, hall⟩, hf⟩
          exact ⟨hmem, hall, fun _ => hf⟩
        · rintro ⟨hmem, hall, hf⟩
          exact ⟨⟨hmem, hall⟩, hf hn⟩
      · simp only [if_neg hn]
        rw [mem_sortAsc]
        simp only [List.mem_filter, List.all_eq_true]
        constructor
        · rintro ⟨hmem, hall⟩
          exact ⟨hmem, hall, fun hcon => absurd hcon hn⟩
        · rintro ⟨hmem, hall, _⟩
          exact ⟨hmem, hall⟩

/-- Witness for C6 (amended): the empty-context branch on `sC6` returns the
full (descending) tag list, and the `[a]`-context result is ascending. -/
theorem claim_c6_witness :
    GetCoincidentTags sC6 [] "zz" = GetAllTags sC6 ∧
    (GetCoincidentTags sC6 [⟨1, "a"⟩] "").Pairwise (fun a b => tagLe a b = true) :=
  ⟨((claim_c6_amended sC6 [] "zz").1 rfl).1,
   ((claim_c6_amended sC6 [⟨1, "a"⟩] "").2 (by decide)).1⟩

theorem list_take_set_of_le {α : Type} (l : List α) (m n : Nat) (v : α) (h : n ≤ m) :
    (l.set m v).take n = l.take n := by
  induction l generalizing m n with
  | nil => rfl
  | cons a as ih =>
    cases n with
    | zero => rfl
    | succ n2 =>
      cases m with
      | zero => omega
      | succ m2 =>
        simp only [List.set, List.take]
        rw [ih m2 n2 (by omega)]

theorem list_drop_set_add {α : Type} (l : List α) (off k : Nat) (v : α) :
    (l.set (off + k) v).drop off = (l.drop off).set k v := by
  induction off generalizing l with
  | zero => simp
  | succ off2 ih =>
    cases l with
    | nil => simp
    | cons a as =>
      have hidx : off2 + 1 + k = (off2 + k) + 1 := by omega
      rw [hidx]
      simp only [List.set, List.drop]
      exact ih as

theorem list_set_take_concat {α : Type} (l : List α) (n : Nat) (v : α) (h : n < l.length) :
    (l.set n v).take (n + 1) = l.take n ++ [v] := by
  induction l generalizing n with
  | nil => simp at h
  | cons a as ih =>
    cases n with
    | zero => rfl
    | succ n2 =>
      simp only [List.set, List.take, List.cons_append]
      rw [ih n2 (by simpa using h)]

theorem list_getD_set_self {α : Type} (l : List α) (i : Nat) (x d : α) (h : i < l.length) :
    (l.set i x).getD i d = x := by
  induction l generalizing i with
  | nil => simp at h
  | cons a as ih =>
    cases i with
    | zero => rfl
    | succ i2 =>
      simp only [List.set]
      exact ih i2 (by simpa using h)

theorem list_getD_append_left {α : Type} (l1 l2 : List α) (i : Nat) (d : α)
    (h : i < l1.length) : (l1 ++ l2).getD i d = l1.getD i d := by
  induction l1 generalizing i with
  | nil => simp at h
  | cons a as ih =>
    cases i with
    | zero => rfl
    | succ i2 =>
      simp only [List.cons_append]
      exact ih i2 (by simp at h; omega)

theorem list_getD_append_self {α : Type} (l1 : List α) (x : α) (d : α) :
    (l1 ++ [x]).getD l1.length d = x := by
  induction l1 with
  | nil => rfl
  | cons a as ih => simp only [List.cons_append, List.length_cons]; exact ih

theorem list_getD_set_heap {α : Type} (l : List (List α)) (i : Nat) (x : List α)
    (h : i < l.length) : (l.set i x).getD i [] = x :=
  list_getD_set_self l i x [] h

/-- Counterexample for C8: on a slice with spare capacity (`len 1`, `cap 2`),
a successful `appendIfNotFound` writes into the caller's backing array and
returns a slice over the same array — the result shares storage with the
caller's sequence, contradicting the claim's "shares no storage" part. -/
theorem claim_c8_cex :
    (sliceView hC8 slC8).any (fun x => x.Text == "b") = false ∧
    appendIfNotFound hC8 slC8 ⟨2, "b"⟩ = ([[⟨1, "a"⟩, ⟨2, "b"⟩]], ⟨0, 0, 2, 2⟩) ∧
    (appendIfNotFound hC8 slC8 ⟨2, "b"⟩).2.arrId = slC8.arrId := by
  decide

/-- C8 (amended): `appendIfNotFound(seq, t)` returns `seq` unchanged when
some element has `t`'s text; otherwise the returned sequence's contents are
`seq` followed by `t` and the caller's view of `seq` is unmutated — but the
result is guaranteed to live in a fresh backing array only when the slice is
at capacity; with spare capacity Go's `append` writes in place and the
result shares the caller's backing array. -/
theorem claim_c8_amended (h : Heap) (sl : GoSlice) (t : TagInfo) (hwf : WfSlice h sl) :
    ((sliceView h sl).any (fun x => x.Text == t.Text) = true →
      appendIfNotFound h sl t = (h, sl)) ∧
    ((sliceView h sl).any (fun x => x.Text == t.Text) = false →
      sliceView (appendIfNotFound h sl t).1 (appendIfNotFound h sl t).2 =
        sliceView h sl ++ [t] ∧
      sliceView (appendIfNotFound h sl t).1 sl = sliceView h sl ∧
      (sl.len = sl.cap → (appendIfNotFound h sl t).2.arrId ≠ sl.arrId)) := by
  obtain ⟨hlt, hfit, hlc⟩ := hwf
  constructor
  · intro hfound
    unfold appendIfNotFound
    rw [if_pos hfound]
  · intro hnot
    unfold appendIfNotFound
    simp only [hnot, Bool.false_eq_true, if_false]
    unfold goAppend
    by_cases hcase : sl.len < sl.cap
    · rw [if_pos hcase]
      have hinlen : sl.off + sl.len < (h.getD sl.arrId []).length := by omega
      refine ⟨?_, ?_, fun hcap => absurd hcap (by omega)⟩
      · show sliceView (h.set sl.arrId ((h.getD sl.arrId []).set (sl.off + sl.len) t))
          ⟨sl.arrId, sl.off, sl.len + 1, sl.cap⟩ = sliceView h sl ++ [t]
        unfold sliceView
        simp only
        rw [list_getD_set_heap h sl.arrId _ hlt,
          list_drop_set_add (h.getD sl.arrId []) sl.off sl.len t,
          list_set_take_concat ((h.getD sl.arrId []).drop sl.off) sl.len t
            (by rw [List.length_drop]; omega)]
      · show sliceView (h.set sl.arrId ((h.getD sl.arrId []).set (sl.off + sl.len) t)) sl
          = sliceView h sl
        unfold sliceView
        rw [list_getD_set_heap h sl.arrId _ hlt,
          list_drop_set_add (h.getD sl.arrId []) sl.off sl.len t,
          list_take_set_of_le _ sl.len sl.len t (le_refl _)]
    · rw [if_neg hcase]
      have hviewlen : (sliceView h sl).length = sl.len := by
        unfold sliceView
        rw [List.length_take, List.length_drop]
        omega
      refine ⟨?_, ?_, fun _ => ?_⟩
      · show sliceView (h ++ [sliceView h sl ++ [t] ++
            List.replicate (max (2 * sl.cap) (sl.len + 1) - (sl.len + 1)) zeroTag])
          ⟨h.length, 0, sl.len + 1, max (2 * sl.cap) (sl.len + 1)⟩ =
          sliceView h sl ++ [t]
        unfold sliceView
        simp only [List.drop_zero]
        rw [list_getD_append_self h _ []]
        have htl := List.take_left (sliceView h sl ++ [t])
          (List.replicate (max (2 * sl.cap) (sl.len + 1) - (sl.len + 1)) zeroTag)
        rw [List.length_append, hviewlen, List.length_singleton] at htl
        exact htl
      · show sliceView (h ++ [sliceView h sl ++ [t] ++
            List.replicate (max (2 * sl.cap) (sl.len + 1) - (sl.len + 1)) zeroTag]) sl
          = sliceView h sl
        unfold sliceView
        rw [list_getD_append_left h _ sl.arrId [] hlt]
      · show h.length ≠ sl.arrId
        omega

/-- Witness for C8 (amended): appending `b` to a full (`len = cap = 1`)
slice holding `a` yields the contents `[a, b]` in a fresh backing array,
with the original view intact. -/
theorem claim_c8_witness :
    sliceView (appendIfNotFound hC8w slC8w ⟨2, "b"⟩).1 (appendIfNotFound hC8w slC8w ⟨2, "b"⟩).2
      = sliceView hC8w slC8w ++ [⟨2, "b"⟩] ∧
    sliceView (appendIfNotFound hC8w slC8w ⟨2, "b"⟩).1 slC8w = sliceView hC8w slC8w ∧
    (appendIfNotFound hC8w slC8w ⟨2, "b"⟩).2.arrId ≠ slC8w.arrId := by
  have hres := (claim_c8_amended hC8w slC8w ⟨2, "b"⟩ (by decide)).2 (by decide)
  exact ⟨hres.1, hres.2.1, hres.2.2 (by decide)⟩
